import Mathlib

/-!
Verification of the AI-assisted interaction ingestion pipeline of the
`prm` personal relationship manager.

The development shallowly embeds the Rust sources:

* `src/ai/llm_service.rs` — defensive decoding of the model JSON reply
  (`parse_llm_json`) into a `ParsedInteraction`;
* `src/cli/ai_log_command.rs` — the interactive review loop
  (`review_and_save` / `edit_field`), correction persistence
  (`maybe_save_correction`), the commit step (`save_interaction`) and
  entity resolution (`resolve_person`);
* `prm-rust/src/ai/whisper_service.rs` — the linear-interpolation
  resampler (`resample`) and the mono/16 kHz decoding pipeline.

Modelling conventions:

* `f32`/`f64` sample values and rate arithmetic are embedded as exact
  rationals (`ℚ`); the resampler claims are about its exact arithmetic
  structure, not bit-level IEEE behaviour.
* Interactive I/O is embedded by passing an explicit list of user input
  lines (the script); consuming a prompt takes the head of the list, an
  exhausted list models end of input (`None` from `CLIContext::prompt`).
  Prompts trim their line, as `CLIContext::prompt` does.
* Database writes (correction inserts, person inserts, interaction
  inserts) are embedded as an emitted list of `Effect`s: the sequence of
  collaborator calls the session performs.
* Rust string handling (`to_lowercase`, `trim`, `split`, `contains`,
  `eq_ignore_ascii_case`) is embedded on `List Char` via the helpers
  below; the Unicode/ASCII distinction is immaterial for these claims.
* The model reply is embedded as an already-decoded JSON value tree
  (`Json`); `serde_json::from_str` itself is an external library.
-/

/-! ### String helpers (models of the Rust string primitives used) -/

/-- Model of Rust `str::to_lowercase` (per-character lowercasing). -/
def lowerStr (s : String) : String :=
  ⟨s.data.map Char.toLower⟩

/-- Model of Rust `str::trim`: drop leading and trailing whitespace. -/
def trimStr (s : String) : String :=
  ⟨((s.data.dropWhile Char.isWhitespace).reverse.dropWhile Char.isWhitespace).reverse⟩

/-- Prefix test on character lists. -/
def listIsPref : List Char → List Char → Bool
  | [], _ => true
  | _ :: _, [] => false
  | a :: as, b :: bs => a == b && listIsPref as bs

/-- Substring containment on character lists, the model of Rust
`str::contains` on already-lowercased strings. -/
def listContainsSub (hay needle : List Char) : Bool :=
  listIsPref needle hay ||
    match hay with
    | [] => false
    | _ :: t => listContainsSub t needle

/-- Model of Rust `str::contains` (substring test). -/
def strContains (hay needle : String) : Bool :=
  listContainsSub hay.data needle.data

/-- Model of Rust `str::eq_ignore_ascii_case`. -/
def eqIgnoreCase (a b : String) : Bool :=
  lowerStr a == lowerStr b

/-- Splitting a character list on the comma character, as Rust
`str::split(',')` does (empty pieces are kept). -/
def splitCommaAux : List Char → List (List Char)
  | [] => [[]]
  | c :: cs =>
    if c == ',' then [] :: splitCommaAux cs
    else
      match splitCommaAux cs with
      | [] => [[c]]
      | l :: ls => (c :: l) :: ls

/-- Model of Rust `input.split(',')`. -/
def splitComma (s : String) : List String :=
  (splitCommaAux s.data).map (fun l => ⟨l⟩)

/-! ### JSON value trees (the already-parsed `serde_json::Value`) -/

/-- A decoded JSON document, the shape `serde_json::Value` exposes to
`parse_llm_json`.  Numbers carry no structure the parser inspects. -/
inductive Json where
  | null
  | bool (b : Bool)
  | num (n : Int)
  | str (s : String)
  | arr (elems : List Json)
  | obj (fields : List (String × Json))

/-- Model of `serde_json::Value::get(key)`: field lookup on an object,
`None` on anything else.  A parsed `serde_json` object has no duplicate
keys, so first-match lookup is exact. -/
def Json.getKey : Json → String → Option Json
  | Json.obj fields, k => (fields.find? (fun f => f.1 == k)).map (fun f => f.2)
  | _, _ => none

/-- Model of `serde_json::Value::as_str`. -/
def Json.asStr : Json → Option String
  | Json.str s => some s
  | _ => none

/-- Model of `serde_json::Value::as_array`. -/
def Json.asArr : Json → Option (List Json)
  | Json.arr xs => some xs
  | _ => none

/-- Model of `serde_json::Value::is_array`. -/
def Json.isArr : Json → Bool
  | Json.arr _ => true
  | _ => false

/-! ### ParsedInteraction and the defensive decoder `parse_llm_json` -/

/-- The staging record produced by the parser
(`ParsedInteraction` in `src/ai/llm_service.rs`). -/
structure ParsedInteraction where
  person_names : List String
  medium : String
  location : String
  their_location : Option String
  topics : List String
  note : Option String
  date : Option String
deriving Repr, DecidableEq

/-- The `person_names` extraction block of `parse_llm_json`
(src/ai/llm_service.rs, lines 143–158): an array field with empty
strings filtered out, falling back to the legacy `personName` scalar. -/
def extract_person_names (j : Json) : List String :=
  match j.getKey "personNames" with
  | some (Json.arr xs) =>
      (xs.filterMap Json.asStr).filter (fun s => !s.isEmpty)
  | _ =>
      match (j.getKey "personName").bind Json.asStr with
      | some name => if !name.isEmpty then [name] else []
      | none => []

/-- Embedding of `parse_llm_json` (src/ai/llm_service.rs, lines 139–213)
applied to the decoded JSON content.  The initial
`serde_json::from_str` step is the external JSON library; its
`MalformedResponse` failure precedes this function. -/
def parse_llm_json (j : Json) : Except String ParsedInteraction :=
  let person_names : List String := extract_person_names j
  let medium : String := ((j.getKey "medium").bind Json.asStr).getD "InPerson"
  let location : String := ((j.getKey "location").bind Json.asStr).getD ""
  let their_location : Option String := (j.getKey "theirLocation").bind Json.asStr
  let topics : List String :=
    (((j.getKey "topics").bind Json.asArr).map
      (fun arr => arr.filterMap Json.asStr)).getD []
  let note : Option String := (j.getKey "note").bind Json.asStr
  let date : Option String := (j.getKey "date").bind Json.asStr
  if person_names.isEmpty then
    Except.error "LLM did not extract any person names"
  else if topics.isEmpty then
    Except.error "LLM did not extract any topics"
  else
    Except.ok
      { person_names := person_names
        medium := medium
        location := location
        their_location := their_location
        topics := topics
        note := note
        date := date }

/-- The condition of claim C1 on the decoded JSON: the `personNames`
field is absent, not an array, or an array whose string elements are all
empty, and there is no non-empty legacy `personName` scalar. -/
def noPeopleFieldsB (j : Json) : Bool :=
  (match j.getKey "personNames" with
   | some (Json.arr xs) => (xs.filterMap Json.asStr).all (fun s => s == "")
   | some _ => true
   | none => true) &&
  (match (j.getKey "personName").bind Json.asStr with
   | some s => s == ""
   | none => true)

/-- Helper: a list of empty strings filters to nothing under the
non-emptiness filter. -/
theorem filter_nonempty_of_all_empty (l : List String)
    (h : l.all (fun s => s == "") = true) :
    l.filter (fun s => !s.isEmpty) = [] := by
  induction l with
  | nil => rfl
  | cons a t ih =>
    rw [List.all_cons, Bool.and_eq_true, beq_iff_eq] at h
    obtain ⟨ha, ht⟩ := h
    subst ha
    have hstep : ("" :: t).filter (fun s => !s.isEmpty)
        = t.filter (fun s => !s.isEmpty) := rfl
    rw [hstep]
    exact ih ht

/-- Helper: under the C1 condition the extracted person-name list is
empty. -/
theorem extract_person_names_empty (j : Json) (h : noPeopleFieldsB j = true) :
    extract_person_names j = [] := by
  unfold noPeopleFieldsB at h
  rw [Bool.and_eq_true] at h
  obtain ⟨h1, h2⟩ := h
  unfold extract_person_names
  split
  next xs heq =>
    rw [heq] at h1
    exact filter_nonempty_of_all_empty _ h1
  next =>
    split
    next name heq2 =>
      rw [heq2] at h2
      rw [beq_iff_eq] at h2
      subst h2
      rfl
    next => rfl

/-- C1: whenever the decoded content has no usable person names —
`personNames` absent, not an array, or an array whose string entries are
all empty, with no non-empty legacy `personName` scalar — the parser
fails with the `NoPeopleExtracted` error, whatever every other field
holds. -/
theorem parse_llm_json_no_people (j : Json) (h : noPeopleFieldsB j = true) :
    parse_llm_json j = Except.error "LLM did not extract any person names" := by
  unfold parse_llm_json
  rw [extract_person_names_empty j h]
  simp

/-- C1 witness: content with `personNames: [""]`, a non-array legacy
field, and rich other fields still fails with `NoPeopleExtracted`. -/
theorem parse_llm_json_no_people_witness :
    noPeopleFieldsB (Json.obj
      [("personNames", Json.arr [Json.str ""]),
       ("personName", Json.num 3),
       ("medium", Json.str "Text"),
       ("topics", Json.arr [Json.str "job"])]) = true ∧
    parse_llm_json (Json.obj
      [("personNames", Json.arr [Json.str ""]),
       ("personName", Json.num 3),
       ("medium", Json.str "Text"),
       ("topics", Json.arr [Json.str "job"])])
      = Except.error "LLM did not extract any person names" :=
  ⟨by decide, parse_llm_json_no_people _ (by decide)⟩

/-- C8: on any successfully parsed content, `medium` is `"InPerson"`
when the `medium` key is absent or not a string, and is passed through
unchanged when it is a string. -/
theorem parse_llm_json_medium_default (j : Json) (pi : ParsedInteraction)
    (h : parse_llm_json j = Except.ok pi) :
    ((j.getKey "medium").bind Json.asStr = none → pi.medium = "InPerson") ∧
    (∀ s, (j.getKey "medium").bind Json.asStr = some s → pi.medium = s) := by
  unfold parse_llm_json at h
  simp only [] at h
  split at h
  · exact absurd h (by simp)
  · split at h
    · exact absurd h (by simp)
    · rw [Except.ok.injEq] at h
      subst h
      constructor
      · intro hnone
        simp [hnone]
      · intro s hs
        simp [hs]

/-- Concrete model reply for the C8 witness: no `medium` key. -/
def jsonC8 : Json :=
  Json.obj
    [("personNames", Json.arr [Json.str "Alice"]),
     ("topics", Json.arr [Json.str "job"])]

/-- The interaction `jsonC8` parses to. -/
def parsedC8 : ParsedInteraction :=
  { person_names := ["Alice"], medium := "InPerson", location := "",
    their_location := none, topics := ["job"], note := none, date := none }

/-- C8 witness: a parse with no `medium` key succeeds and defaults the
medium to `"InPerson"`. -/
theorem parse_llm_json_medium_default_witness :
    parse_llm_json jsonC8 = Except.ok parsedC8 ∧ parsedC8.medium = "InPerson" :=
  ⟨rfl, (parse_llm_json_medium_default jsonC8 parsedC8 rfl).1 rfl⟩

/-! ### The audio resampler (prm-rust/src/ai/whisper_service.rs) -/

/-- Embedding of `resample` (whisper_service.rs, lines 121–134), the
linear-interpolation resampler.  `f32`/`f64` arithmetic is modelled
exactly over `ℚ`; `src.floor() as usize` is `Int.toNat ∘ Int.floor`
(the source position is never negative), and `samples.get(i)` with its
`unwrap_or(0.0)` is `(samples.get? i).getD 0`. -/
def resample (samples : List ℚ) (from_rate to_rate : ℕ) : List ℚ :=
  let ratio : ℚ := (from_rate : ℚ) / (to_rate : ℚ)
  let new_len : ℕ := (⌈(samples.length : ℚ) / ratio⌉).toNat
  (List.range new_len).map (fun (i : ℕ) =>
    let src : ℚ := (i : ℚ) * ratio
    let src_i : ℕ := (⌊src⌋).toNat
    let frac : ℚ := src - (src_i : ℚ)
    let a : ℚ := (samples.get? src_i).getD 0
    let b : ℚ := (samples.get? (src_i + 1)).getD 0
    a + (b - a) * frac)

/-- Splitting a list into consecutive chunks of `n` elements, the last
chunk possibly shorter — Rust `slice::chunks(n)`.  Rust panics on
`n = 0`; that case is unreachable here (the caller passes the channel
count of a decoded WAV and handles `1` separately). -/
def chunksOf {α : Type} (n : ℕ) (l : List α) : List (List α) :=
  if n = 0 then []
  else if l.isEmpty then []
  else l.take n :: chunksOf n (l.drop n)
termination_by l.length
decreasing_by
  rename_i hn hl
  have hl' : l ≠ [] := by
    intro hnil
    subst hnil
    simp at hl
  have hlen : 0 < l.length := List.length_pos.mpr hl'
  rw [List.length_drop]
  omega

/-- The interleaved-channels-to-mono averaging step of
`load_wav_as_f32_mono_16k` (whisper_service.rs, lines 100–108). -/
def monoMix (channels : ℕ) (raw : List ℚ) : List ℚ :=
  if channels = 1 then raw
  else (chunksOf channels raw).map (fun chunk => chunk.sum / (channels : ℚ))

/-- Embedding of the pure tail of `load_wav_as_f32_mono_16k`
(whisper_service.rs, lines 100–117): mono mixing followed by resampling
to 16 kHz unless the source rate is already 16 kHz.  The preceding
WAV-container decoding (`hound`) is an external library and supplies
`channels`, `sample_rate` and the normalised samples `raw`. -/
def load_wav_as_f32_mono_16k (channels sample_rate : ℕ) (raw : List ℚ) : List ℚ :=
  let mono := monoMix channels raw
  if sample_rate = 16000 then mono else resample mono sample_rate 16000

/-- Helper: reading every index of a list back in order reproduces the
list. -/
theorem range_map_get?_getD {α : Type} (l : List α) (d : α) :
    (List.range l.length).map (fun i => (l.get? i).getD d) = l := by
  apply List.ext_get?
  intro n
  rw [List.get?_map]
  by_cases hn : n < l.length
  · rw [List.get?_range hn, Option.map_some', List.get?_eq_get hn]
    rfl
  · rw [List.get?_eq_none.mpr (Nat.le_of_not_lt hn),
        List.get?_eq_none.mpr (by simpa using Nat.le_of_not_lt hn)]
    rfl

/-- Helper: resampling at equal (positive) rates is the identity. -/
theorem resample_eq_rate (samples : List ℚ) (r : ℕ) (hr : 0 < r) :
    resample samples r r = samples := by
  have hr0 : (r : ℚ) ≠ 0 := Nat.cast_ne_zero.mpr hr.ne'
  unfold resample
  simp only [div_self hr0, div_one, Int.ceil_natCast, Int.toNat_natCast,
    mul_one, Int.floor_natCast, sub_self, mul_zero, add_zero]
  exact range_map_get?_getD samples 0

/-- C6: resampling with equal (positive) rates returns the input
unchanged, and when the decoded WAV is already at 16 kHz the decoding
pipeline returns the mono mix directly — the resampling pass never
runs. -/
theorem resample_identity_claims (samples : List ℚ) (r : ℕ) (hr : 0 < r)
    (channels sample_rate : ℕ) (raw : List ℚ) (h16 : sample_rate = 16000) :
    resample samples r r = samples ∧
    load_wav_as_f32_mono_16k channels sample_rate raw = monoMix channels raw := by
  constructor
  · exact resample_eq_rate samples r hr
  · unfold load_wav_as_f32_mono_16k
    rw [if_pos h16]

/-- C6 witness: a concrete 2-sample stereo file at 16 kHz. -/
theorem resample_identity_claims_witness :
    resample [3, 4] 2 2 = [3, 4] ∧
    load_wav_as_f32_mono_16k 2 16000 [1, 2] = monoMix 2 [1, 2] :=
  resample_identity_claims [3, 4] 2 (by decide) 2 16000 [1, 2] rfl

/-- C7: the resampled output length is `⌈len · to_rate / from_rate⌉`
for positive rates. -/
theorem resample_length (samples : List ℚ) (from_rate to_rate : ℕ)
    (hf : 0 < from_rate) (ht : 0 < to_rate) :
    (resample samples from_rate to_rate).length
      = (⌈((samples.length * to_rate : ℕ) : ℚ) / (from_rate : ℚ)⌉).toNat := by
  have h1 : (resample samples from_rate to_rate).length
      = (⌈(samples.length : ℚ) / ((from_rate : ℚ) / (to_rate : ℚ))⌉).toNat := by
    unfold resample
    rw [List.length_map, List.length_range]
  rw [h1]
  congr 2
  push_cast
  rw [div_div_eq_mul_div]

/-- C7 witness: two samples from 2 Hz to 3 Hz give `⌈2·3/2⌉ = 3`
output samples. -/
theorem resample_length_witness :
    (resample [0, 0] 2 3).length = (⌈((2 * 3 : ℕ) : ℚ) / ((2 : ℕ) : ℚ)⌉).toNat := by
  have h := resample_length [0, 0] 2 3 (by decide) (by decide)
  simpa using h

/-- Helper: indexing a `replicate` inside its range. -/
theorem replicate_get?_lt {α : Type} (n m : ℕ) (a : α) (h : m < n) :
    (List.replicate n a).get? m = some a := by
  induction n generalizing m with
  | zero => exact absurd h (Nat.not_lt_zero m)
  | succ n ih =>
    cases m with
    | zero => rfl
    | succ m => exact ih m (Nat.lt_of_succ_lt_succ h)

/-- C5 counterexample: the constant-1 input of length 2 resampled from
2 Hz to 3 Hz yields a third output sample `2/3 ≠ 1`, because its
interpolation window reaches past the last input sample and blends with
the zero padding. -/
theorem resample_const_counterexample :
    (2 / 3 : ℚ) ∈ resample (List.replicate 2 (1 : ℚ)) 2 3 ∧ (2 / 3 : ℚ) ≠ 1 := by
  have heval : resample (List.replicate 2 (1 : ℚ)) 2 3 = [1, 1, 2 / 3] := by
    show resample [1, 1] 2 3 = [1, 1, 2 / 3]
    unfold resample
    norm_num
    have h3 : Int.toNat 3 = 3 := rfl
    rw [h3]
    have hr : List.range 3 = [0, 1, 2] := rfl
    rw [hr]
    simp only [List.map_cons, List.map_nil]
    norm_num
  constructor
  · rw [heval]
    simp
  · norm_num

/-- C5 (amended): on a constant input `c`, every output sample whose
source position `i · from_rate / to_rate` does not pass the last input
index — `i * from_rate ≤ (len - 1) * to_rate` — equals `c` exactly;
only trailing samples whose window reaches past the input (blending
with the out-of-range `0.0` padding) may differ, as the counterexample
shows. -/
theorem resample_const_within (c : ℚ) (len from_rate to_rate i : ℕ)
    (hf : 0 < from_rate) (ht : 0 < to_rate)
    (hi : i < (resample (List.replicate len c) from_rate to_rate).length)
    (hcond : i * from_rate ≤ (len - 1) * to_rate) :
    (resample (List.replicate len c) from_rate to_rate).get? i = some c := by
  have ht0 : (0 : ℚ) < (to_rate : ℚ) := by exact_mod_cast ht
  have hf0 : (0 : ℚ) ≤ (from_rate : ℚ) := by positivity
  -- the input is non-empty
  have hlen : 0 < len := by
    rcases Nat.eq_zero_or_pos len with h0 | h0
    · subst h0
      unfold resample at hi
      simp at hi
    · exact h0
  -- reduce the goal to the mapped element
  unfold resample at hi ⊢
  simp only [List.length_map, List.length_range] at hi
  rw [List.get?_map, List.get?_range hi, Option.map_some']
  simp only [List.length_replicate]
  -- name the source position and its floor
  set q : ℚ := (i : ℚ) * ((from_rate : ℚ) / (to_rate : ℚ)) with hq
  have hq_nonneg : 0 ≤ q := by positivity
  have hk0 : 0 ≤ ⌊q⌋ := Int.floor_nonneg.mpr hq_nonneg
  have hcast : ((⌊q⌋.toNat : ℕ) : ℚ) = (⌊q⌋ : ℚ) := by
    rw [← Int.cast_natCast, Int.toNat_of_nonneg hk0]
  -- the source position stays within the input range
  have hq_le : q ≤ ((len - 1 : ℕ) : ℚ) := by
    rw [hq, mul_div_assoc', div_le_iff ht0]
    calc (i : ℚ) * (from_rate : ℚ) = ((i * from_rate : ℕ) : ℚ) := by push_cast; ring
    _ ≤ (((len - 1) * to_rate : ℕ) : ℚ) := by exact_mod_cast hcond
    _ = ((len - 1 : ℕ) : ℚ) * (to_rate : ℚ) := by push_cast; ring
  have hk_le : ⌊q⌋.toNat ≤ len - 1 := by
    have h1 : ⌊q⌋ ≤ ((len - 1 : ℕ) : ℤ) := by
      calc ⌊q⌋ ≤ ⌊((len - 1 : ℕ) : ℚ)⌋ := Int.floor_le_floor hq_le
      _ = ((len - 1 : ℕ) : ℤ) := Int.floor_natCast _
    omega
  have hk_lt : ⌊q⌋.toNat < len := Nat.lt_of_le_of_lt hk_le (Nat.sub_lt hlen Nat.one_pos)
  have ha : ((List.replicate len c).get? ⌊q⌋.toNat).getD 0 = c := by
    rw [replicate_get?_lt len _ c hk_lt]
    rfl
  by_cases hfrac : q - ((⌊q⌋.toNat : ℕ) : ℚ) = 0
  · rw [hfrac, mul_zero, add_zero, ha]
  · -- the fractional part is non-zero, so the floor is strictly below len - 1
    have hlt_q : ((⌊q⌋.toNat : ℕ) : ℚ) < q := by
      rcases lt_or_eq_of_le (hcast ▸ Int.floor_le q) with h | h
      · exact h
      · exact absurd (by rw [h]; exact sub_self q) hfrac
    have hk_lt' : ⌊q⌋.toNat < len - 1 := by
      rcases Nat.lt_or_ge ⌊q⌋.toNat (len - 1) with h | h
      · exact h
      · exfalso
        have heq : ⌊q⌋.toNat = len - 1 := Nat.le_antisymm hk_le h
        rw [heq] at hlt_q
        exact absurd (lt_of_lt_of_le hlt_q hq_le) (lt_irrefl _)
    have hb : ((List.replicate len c).get? (⌊q⌋.toNat + 1)).getD 0 = c := by
      rw [replicate_get?_lt len _ c (by omega)]
      rfl
    rw [ha, hb, sub_self, zero_mul, add_zero]

/-- C5 witness for the amended statement: a constant-5 input of length
4 halved from 2 Hz to 1 Hz keeps the value 5 at index 1, which is
within the input range. -/
theorem resample_const_within_witness :
    (resample (List.replicate 4 (5 : ℚ)) 2 1).get? 1 = some 5 :=
  resample_const_within 5 4 2 1 1 (by decide) (by decide)
    (by norm_num [resample]) (by decide)

/-! ### People, effects and JSON serialization for the review session -/

/-- A known contact, with the fields entity resolution inspects
(`Person` in the model layer; the remaining columns play no role
here). -/
structure Person where
  id : ℕ
  name : String
  nickname : Option String
deriving Repr, DecidableEq

/-- The interaction media (`InteractionMedium` in the model layer). -/
inductive InteractionMedium where
  | InPerson
  | Text
  | PhoneCall
  | VideoCall
  | SocialMedia
deriving Repr, DecidableEq

/-- Embedding of `parse_medium` (ai_log_command.rs, lines 390–402):
unknown strings fall back to `InPerson` (with a console warning). -/
def parse_medium (s : String) : InteractionMedium :=
  if s = "InPerson" then InteractionMedium.InPerson
  else if s = "Text" then InteractionMedium.Text
  else if s = "PhoneCall" then InteractionMedium.PhoneCall
  else if s = "VideoCall" then InteractionMedium.VideoCall
  else if s = "SocialMedia" then InteractionMedium.SocialMedia
  else InteractionMedium.InPerson

/-- A collaborator call performed by the session: a correction insert
(`correction_repo::insert`), a contact insert (`person_ops::add_person`)
or an interaction insert (`interaction_ops::log_in_person` /
`log_remote`).  The `date` argument is carried as the raw optional
string of the `ParsedInteraction`; its conversion to a calendar date
(defaulting to today) depends on ambient wall-clock time and is outside
the embedding. -/
inductive Effect where
  | insertCorrection (original_text ai_output user_output : String)
  | addPerson (name : String)
  | logInPerson (person : ℕ) (location : String) (topics : List String)
      (note : Option String) (date : Option String)
  | logRemote (person : ℕ) (medium : InteractionMedium) (location : String)
      (their_location : Option String) (topics : List String)
      (note : Option String) (date : Option String)
deriving Repr, DecidableEq

/-- Whether an effect is a correction-store insert. -/
def Effect.isCorrection : Effect → Bool
  | Effect.insertCorrection _ _ _ => true
  | _ => false

/-- Whether an effect is an interaction commit. -/
def Effect.isLog : Effect → Bool
  | Effect.logInPerson _ _ _ _ _ => true
  | Effect.logRemote _ _ _ _ _ _ _ => true
  | _ => false

/-- Hex digit used by the serde_json control-character escape. -/
def hexDigit (n : ℕ) : Char :=
  if n < 10 then Char.ofNat (48 + n) else Char.ofNat (87 + n)

/-- serde_json string escaping: quote, backslash, the short control
escapes, and `\u00XX` for remaining control characters. -/
def escapeChar (c : Char) : List Char :=
  if c = '"' then ['\\', '"']
  else if c = '\\' then ['\\', '\\']
  else if c = '\x08' then ['\\', 'b']
  else if c = '\x09' then ['\\', 't']
  else if c = '\x0a' then ['\\', 'n']
  else if c = '\x0c' then ['\\', 'f']
  else if c = '\x0d' then ['\\', 'r']
  else if c.toNat < 32 then
    ['\\', 'u', '0', '0', hexDigit (c.toNat / 16), hexDigit (c.toNat % 16)]
  else [c]

/-- A JSON string literal, serde_json style. -/
def jsonStr (s : String) : String :=
  ⟨'"' :: (s.data.map escapeChar).join ++ ['"']⟩

/-- A JSON array of string literals. -/
def jsonStrList (l : List String) : String :=
  "[" ++ String.intercalate "," (l.map jsonStr) ++ "]"

/-- A JSON optional string: `null` or a string literal. -/
def jsonOptStr : Option String → String
  | some s => jsonStr s
  | none => "null"

/-- Model of `serde_json::to_string` on a `ParsedInteraction`: compact
JSON with the fields in declaration order (the `personName` alias only
affects deserialization). -/
def serializeParsed (p : ParsedInteraction) : String :=
  "\x7b\"person_names\":" ++ jsonStrList p.person_names ++
  ",\"medium\":" ++ jsonStr p.medium ++
  ",\"location\":" ++ jsonStr p.location ++
  ",\"their_location\":" ++ jsonOptStr p.their_location ++
  ",\"topics\":" ++ jsonStrList p.topics ++
  ",\"note\":" ++ jsonOptStr p.note ++
  ",\"date\":" ++ jsonOptStr p.date ++ "\x7d"

/-! ### Prompts and the field editor -/

/-- Model of `ctx.prompt(..).unwrap_or_default()`: take the next input
line trimmed, or the empty string at end of input.  Returns the value
and the remaining script. -/
def promptD : List String → String × List String
  | [] => ("", [])
  | x :: xs => (trimStr x, xs)

/-- Embedding of `edit_field` (ai_log_command.rs, lines 104–224).
Consumes the field-selector prompt and at most one further prompt from
the input script; returns the updated interaction and the remaining
script. -/
def edit_field (parsed : ParsedInteraction) (inputs : List String) :
    ParsedInteraction × List String :=
  match inputs with
  | [] => (parsed, [])
  | f :: rest =>
    let fld := trimStr f
    if fld = "1" then
      let input := (promptD rest).1
      let rest1 := (promptD rest).2
      if !input.isEmpty then
        let names := ((splitComma input).map trimStr).filter (fun s => !s.isEmpty)
        if !names.isEmpty then ({ parsed with person_names := names }, rest1)
        else (parsed, rest1)
      else (parsed, rest1)
    else if fld = "2" then
      let input := (promptD rest).1
      let rest1 := (promptD rest).2
      let newMedium :=
        if input = "1" then "InPerson"
        else if input = "2" then "Text"
        else if input = "3" then "PhoneCall"
        else if input = "4" then "VideoCall"
        else if input = "5" then "SocialMedia"
        else parsed.medium
      ({ parsed with medium := newMedium }, rest1)
    else if fld = "3" then
      let input := (promptD rest).1
      let rest1 := (promptD rest).2
      if !input.isEmpty then ({ parsed with location := input }, rest1)
      else (parsed, rest1)
    else if fld = "4" then
      if parsed.medium = "InPerson" then (parsed, rest)
      else
        let input := (promptD rest).1
        let rest1 := (promptD rest).2
        if !input.isEmpty then ({ parsed with their_location := some input }, rest1)
        else (parsed, rest1)
    else if fld = "5" then
      let input := (promptD rest).1
      let rest1 := (promptD rest).2
      if !input.isEmpty then
        let new_topics := ((splitComma input).map trimStr).filter (fun s => !s.isEmpty)
        if !new_topics.isEmpty then ({ parsed with topics := new_topics }, rest1)
        else (parsed, rest1)
      else (parsed, rest1)
    else if fld = "6" then
      let input := (promptD rest).1
      let rest1 := (promptD rest).2
      if !input.isEmpty then ({ parsed with note := some input }, rest1)
      else (parsed, rest1)
    else if fld = "7" then
      let input := (promptD rest).1
      let rest1 := (promptD rest).2
      if !input.isEmpty then ({ parsed with date := some input }, rest1)
      else (parsed, rest1)
    else (parsed, rest)

/-! ### Entity resolution and the commit step -/

/-- The substring match rule of `resolve_person` (ai_log_command.rs,
lines 342–351): case-insensitive substring match against name or
nickname. -/
def personMatches (query : String) (p : Person) : Bool :=
  strContains (lowerStr p.name) (lowerStr query) ||
    (match p.nickname with
     | some nick => strContains (lowerStr nick) (lowerStr query)
     | none => false)

/-- Model of `person_ops::add_person` with only a name: a fresh person
row (the source generates a UUID id; only freshness matters here). -/
def add_person (db : List Person) (name : String) : Person :=
  { id := db.length, name := name, nickname := none }

/-- Result of resolving one name: the person found (if any), the
possibly-grown contact list, the remaining input script, and the
collaborator calls performed. -/
structure ResolveOneOut where
  found : Option Person
  db : List Person
  inputs : List String
  effects : List Effect
deriving Repr, DecidableEq

/-- Embedding of `resolve_person` (ai_log_command.rs, lines 339–388):
single substring match resolves; several matches prefer an exact
case-insensitive full-name match and otherwise resolve no one; zero
matches offer to create the contact, consuming a y/n prompt. -/
def resolve_person (db : List Person) (name : String) (inputs : List String) :
    ResolveOneOut :=
  let matched := db.filter (personMatches name)
  match matched with
  | [m] => ⟨some m, db, inputs, []⟩
  | [] =>
    let answer := lowerStr (promptD inputs).1
    let rest := (promptD inputs).2
    if answer = "y" ∨ answer = "yes" then
      let p := add_person db name
      ⟨some p, db ++ [p], rest, [Effect.addPerson name]⟩
    else ⟨none, db, rest, []⟩
  | ms =>
    match ms.find? (fun p => eqIgnoreCase p.name name) with
    | some exact => ⟨some exact, db, inputs, []⟩
    | none => ⟨none, db, inputs, []⟩

/-- Result of resolving all names of a `ParsedInteraction` in order. -/
structure ResolveAllOut where
  resolved : List Person
  db : List Person
  inputs : List String
  effects : List Effect
deriving Repr, DecidableEq

/-- The `filter_map` pass of `save_interaction` over `person_names`:
each name is resolved against the then-current contact list (earlier
accepted creations are visible to later names). -/
def resolveAll (db : List Person) (names : List String) (inputs : List String) :
    ResolveAllOut :=
  match names with
  | [] => ⟨[], db, inputs, []⟩
  | n :: ns =>
    let r1 := resolve_person db n inputs
    let r2 := resolveAll r1.db ns r1.inputs
    ⟨r1.found.toList ++ r2.resolved, r2.db, r2.inputs, r1.effects ++ r2.effects⟩

/-- The per-person commit loop of `save_interaction` (ai_log_command.rs,
lines 298–336): `log_in_person` for in-person interactions, `log_remote`
otherwise. -/
def commitLogs (parsed : ParsedInteraction) (people : List Person) : List Effect :=
  people.map (fun p =>
    if parse_medium parsed.medium = InteractionMedium.InPerson then
      Effect.logInPerson p.id parsed.location parsed.topics parsed.note parsed.date
    else
      Effect.logRemote p.id (parse_medium parsed.medium) parsed.location
        parsed.their_location parsed.topics parsed.note parsed.date)

/-- Result of a commit attempt (or of the whole review session). -/
structure SessionOut where
  effects : List Effect
  db : List Person
  inputs : List String
deriving Repr, DecidableEq

/-- Embedding of `save_interaction` (ai_log_command.rs, lines 269–337):
reject an empty location; resolve every name; abort when no one
resolved; on a partial resolution ask for confirmation and commit only
on `y`/`yes`; otherwise commit for every resolved person. -/
def save_interaction (db : List Person) (parsed : ParsedInteraction)
    (inputs : List String) : SessionOut :=
  if parsed.location.isEmpty then ⟨[], db, inputs⟩
  else
    let r := resolveAll db parsed.person_names inputs
    if r.resolved.isEmpty then ⟨r.effects, r.db, r.inputs⟩
    else if r.resolved.length < parsed.person_names.length then
      let answer := lowerStr (promptD r.inputs).1
      let rest := (promptD r.inputs).2
      if answer ≠ "y" ∧ answer ≠ "yes" then ⟨r.effects, r.db, rest⟩
      else ⟨r.effects ++ commitLogs parsed r.resolved, r.db, rest⟩
    else ⟨r.effects ++ commitLogs parsed r.resolved, r.db, r.inputs⟩

/-- Embedding of `maybe_save_correction` (ai_log_command.rs, lines
79–102): insert a correction exactly when the serialized original and
final interactions differ. -/
def maybe_save_correction (original_text : String)
    (ai_original user_final : ParsedInteraction) : List Effect :=
  let ai_json := serializeParsed ai_original
  let user_json := serializeParsed user_final
  if ai_json ≠ user_json then
    [Effect.insertCorrection original_text ai_json user_json]
  else []

/-- Helper: `edit_field` never lengthens the remaining input script
(used for termination of the review loop). -/
theorem edit_field_inputs_le (parsed : ParsedInteraction) (inputs : List String) :
    (edit_field parsed inputs).2.length ≤ inputs.length := by
  rcases inputs with _ | ⟨f, rest⟩
  · simp [edit_field]
  · have hrest : (promptD rest).2.length ≤ rest.length := by
      rcases rest with _ | ⟨x, xs⟩ <;> simp [promptD]
    have hcases : (edit_field parsed (f :: rest)).2 = rest ∨
        (edit_field parsed (f :: rest)).2 = (promptD rest).2 := by
      unfold edit_field
      simp only []
      repeat' split
      all_goals simp
    rcases hcases with h | h <;> rw [h] <;> simp only [List.length_cons] <;> omega

/-- Embedding of `review_and_save` (ai_log_command.rs, lines 47–77): an
unbounded present/decide loop.  `s`/`save` persists a correction when
the interaction was edited and then attempts the commit; `d`/`discard`
ends with no effects; `e`/`edit` runs the field editor and loops; any
other input loops; end of input returns (implicit discard). -/
def review_loop (db : List Person) (original_text : String)
    (ai_original current : ParsedInteraction) (inputs : List String) :
    List Effect × List Person :=
  match inputs with
  | [] => ([], db)
  | choice :: rest =>
    let c := lowerStr (trimStr choice)
    if c = "s" ∨ c = "save" then
      let corr := maybe_save_correction original_text ai_original current
      let s := save_interaction db current rest
      (corr ++ s.effects, s.db)
    else if c = "d" ∨ c = "discard" then ([], db)
    else if c = "e" ∨ c = "edit" then
      review_loop db original_text ai_original
        (edit_field current rest).1 (edit_field current rest).2
    else
      review_loop db original_text ai_original current rest
termination_by inputs.length
decreasing_by
  · simp only [List.length_cons]
    exact Nat.lt_succ_of_le (edit_field_inputs_le _ _)
  · simp only [List.length_cons]
    exact Nat.lt_succ_self _

/-- Helper: resolving one name only ever inserts a contact — never a
correction, never an interaction. -/
theorem resolve_person_effects (db : List Person) (name : String)
    (inputs : List String) :
    ∀ e ∈ (resolve_person db name inputs).effects,
      e.isCorrection = false ∧ e.isLog = false := by
  unfold resolve_person
  simp only []
  split
  · simp
  · split
    · intro e he
      simp only [List.mem_singleton] at he
      subst he
      exact ⟨rfl, rfl⟩
    · simp
  · split <;> simp

/-- Helper: the resolution pass over all names only ever inserts
contacts. -/
theorem resolveAll_effects (db : List Person) (names : List String)
    (inputs : List String) :
    ∀ e ∈ (resolveAll db names inputs).effects,
      e.isCorrection = false ∧ e.isLog = false := by
  induction names generalizing db inputs with
  | nil => simp [resolveAll]
  | cons n ns ih =>
    intro e he
    unfold resolveAll at he
    simp only [List.mem_append] at he
    rcases he with he | he
    · exact resolve_person_effects db n inputs e he
    · exact ih _ _ e he

/-- Helper: every commit-loop effect is an interaction insert. -/
theorem commitLogs_effects (p : ParsedInteraction) (people : List Person) :
    ∀ e ∈ commitLogs p people, e.isLog = true ∧ e.isCorrection = false := by
  intro e he
  unfold commitLogs at he
  simp only [List.mem_map] at he
  obtain ⟨q, hq, rfl⟩ := he
  split <;> exact ⟨rfl, rfl⟩

/-- Helper: the commit step never writes to the correction store. -/
theorem save_interaction_no_corrections (db : List Person)
    (p : ParsedInteraction) (inputs : List String) :
    ∀ e ∈ (save_interaction db p inputs).effects, e.isCorrection = false := by
  intro e he
  unfold save_interaction at he
  split at he
  · simp at he
  · simp only [] at he
    split at he
    · exact (resolveAll_effects db p.person_names inputs e he).1
    · split at he
      · split at he
        · exact (resolveAll_effects db p.person_names inputs e he).1
        · simp only [List.mem_append] at he
          rcases he with he | he
          · exact (resolveAll_effects db p.person_names inputs e he).1
          · exact (commitLogs_effects p _ e he).2
      · simp only [List.mem_append] at he
        rcases he with he | he
        · exact (resolveAll_effects db p.person_names inputs e he).1
        · exact (commitLogs_effects p _ e he).2

/-! ### Claim theorems over the review session -/

/-- The contact pool of the disambiguation example. -/
def aliceSmith : Person := ⟨0, "Alice Smith", none⟩

/-- The second contact of the disambiguation example. -/
def aliceJones : Person := ⟨1, "Alice Jones", none⟩

/-- Helper: with at least two matches, `resolve_person` reduces to the
exact-match lookup over the match list. -/
theorem resolve_person_multi (db : List Person) (name : String)
    (inputs : List String) (a b : Person) (t : List Person)
    (hm : db.filter (personMatches name) = a :: b :: t) :
    resolve_person db name inputs =
      (match (a :: b :: t).find? (fun p => eqIgnoreCase p.name name) with
       | some exact => ⟨some exact, db, inputs, []⟩
       | none => ⟨none, db, inputs, []⟩) := by
  unfold resolve_person
  simp only []
  rw [hm]

/-- C3: with several substring matches, resolution returns a candidate
whose full name equals the query case-insensitively when one exists and
otherwise resolves no one (the ambiguity is only reported); exactly one
match resolves to it; and in the pool Alice Smith / Alice Jones the
query "alice" resolves no one while "Alice Smith" resolves Alice
Smith. -/
theorem resolve_person_disambiguation (db : List Person) (name : String)
    (inputs : List String) :
    (1 < (db.filter (personMatches name)).length →
      ((∃ c ∈ db.filter (personMatches name), eqIgnoreCase c.name name = true) →
        ∃ c ∈ db.filter (personMatches name), eqIgnoreCase c.name name = true ∧
          resolve_person db name inputs = ⟨some c, db, inputs, []⟩) ∧
      ((∀ c ∈ db.filter (personMatches name), eqIgnoreCase c.name name = false) →
        resolve_person db name inputs = ⟨none, db, inputs, []⟩)) ∧
    (∀ c, db.filter (personMatches name) = [c] →
      resolve_person db name inputs = ⟨some c, db, inputs, []⟩) ∧
    resolve_person [aliceSmith, aliceJones] "alice" []
      = ⟨none, [aliceSmith, aliceJones], [], []⟩ ∧
    resolve_person [aliceSmith, aliceJones] "Alice Smith" []
      = ⟨some aliceSmith, [aliceSmith, aliceJones], [], []⟩ := by
  refine ⟨?_, ?_, ?_, ?_⟩
  · intro hlen
    rcases hm : db.filter (personMatches name) with _ | ⟨a, _ | ⟨b, t⟩⟩
    · rw [hm] at hlen; simp at hlen
    · rw [hm] at hlen; simp at hlen
    · constructor
      · rintro ⟨c, hc, hex⟩
        rcases hf : (a :: b :: t).find? (fun p => eqIgnoreCase p.name name)
          with _ | ex
        · rw [List.find?_eq_none] at hf
          exact absurd hex (by simpa using hf c hc)
        · have hpx : eqIgnoreCase ex.name name = true := by
            simpa using List.find?_some hf
          refine ⟨ex, List.mem_of_find?_eq_some hf, hpx, ?_⟩
          rw [resolve_person_multi db name inputs a b t hm, hf]
      · intro hall
        rcases hf : (a :: b :: t).find? (fun p => eqIgnoreCase p.name name)
          with _ | ex
        · rw [resolve_person_multi db name inputs a b t hm, hf]
        · have hmem : ex ∈ a :: b :: t := List.mem_of_find?_eq_some hf
          have hpx : eqIgnoreCase ex.name name = true := by
            simpa using List.find?_some hf
          have hfalse := hall ex hmem
          rw [hpx] at hfalse
          simp at hfalse
  · intro c hc
    unfold resolve_person
    simp only []
    rw [hc]
  · decide
  · decide

/-- C3 witness: in a pool where "alice" matches three contacts and one
is literally named "alice", the exact-match tie-break resolves. -/
theorem resolve_person_disambiguation_witness :
    ∃ c ∈ [aliceSmith, aliceJones, ⟨2, "alice", none⟩].filter
        (personMatches "alice"), eqIgnoreCase c.name "alice" = true ∧
      resolve_person [aliceSmith, aliceJones, ⟨2, "alice", none⟩] "alice" []
        = ⟨some c, [aliceSmith, aliceJones, ⟨2, "alice", none⟩], [], []⟩ :=
  ((resolve_person_disambiguation
      [aliceSmith, aliceJones, ⟨2, "alice", none⟩] "alice" []).1
    (by decide)).1 (by decide)

/-- The interactions reachable inside one review session that starts
from `init`: the initial parse and everything the field editor can
produce from a reachable state (the loop mutates `current` only through
`edit_field`). -/
inductive ReachableReview (init : ParsedInteraction) : ParsedInteraction → Prop
  | refl : ReachableReview init init
  | edit (p : ParsedInteraction) (inputs : List String) :
      ReachableReview init p → ReachableReview init (edit_field p inputs).1

/-- Helper: one edit step keeps `person_names` and `topics`
non-empty. -/
theorem edit_field_preserves_nonempty (p : ParsedInteraction)
    (inputs : List String)
    (hp : p.person_names ≠ []) (htp : p.topics ≠ []) :
    (edit_field p inputs).1.person_names ≠ [] ∧
    (edit_field p inputs).1.topics ≠ [] := by
  rcases inputs with _ | ⟨f, rest⟩
  · exact ⟨hp, htp⟩
  · unfold edit_field
    simp only []
    repeat' split
    all_goals simp_all

/-- C9: a successful parse has non-empty `person_names` and `topics`,
and every interaction reachable in the review loop — the parse output
plus anything the field editor produces — keeps both non-empty: an edit
whose input trims and filters to nothing is a no-op, and no other edit
touches these fields. -/
theorem review_nonempty_invariant (j : Json) (pi : ParsedInteraction)
    (hp : parse_llm_json j = Except.ok pi) :
    ∀ q, ReachableReview pi q → q.person_names ≠ [] ∧ q.topics ≠ [] := by
  have hbase : pi.person_names ≠ [] ∧ pi.topics ≠ [] := by
    unfold parse_llm_json at hp
    simp only [] at hp
    split at hp
    · exact absurd hp (by simp)
    · split at hp
      · exact absurd hp (by simp)
      · rw [Except.ok.injEq] at hp
        subst hp
        constructor
        · simpa [List.isEmpty_iff] using (by assumption : ¬(extract_person_names j).isEmpty = true)
        · simpa [List.isEmpty_iff] using (by assumption :
            ¬((((j.getKey "topics").bind Json.asArr).map
              (fun arr => arr.filterMap Json.asStr)).getD []).isEmpty = true)
  intro q hq
  induction hq with
  | refl => exact hbase
  | edit p inputs hr ih => exact edit_field_preserves_nonempty p inputs ih.1 ih.2

/-- C9 witness: the concrete parse `jsonC8` with one reachable edit
state. -/
theorem review_nonempty_invariant_witness :
    parsedC8.person_names ≠ [] ∧ parsedC8.topics ≠ [] :=
  review_nonempty_invariant jsonC8 parsedC8 rfl parsedC8 ReachableReview.refl

/-- Review interaction used as the AI original in session witnesses. -/
def parsedAiW : ParsedInteraction :=
  { person_names := ["A"], medium := "InPerson", location := "",
    their_location := none, topics := ["t"], note := none, date := none }

/-- The edited variant of `parsedAiW` (one person name changed). -/
def parsedCurW : ParsedInteraction :=
  { parsedAiW with person_names := ["B"] }

/-- C2: on a Save decision the session's effects contain a
correction-store insert exactly when the serialized final interaction
differs from the serialized AI original; in particular a Save of the
unedited interaction writes no correction. -/
theorem save_correction_iff (db : List Person) (text : String)
    (ai cur : ParsedInteraction) (rest : List String) :
    (((review_loop db text ai cur ("s" :: rest)).1.any Effect.isCorrection) = true
      ↔ serializeParsed ai ≠ serializeParsed cur) ∧
    (cur = ai →
      ((review_loop db text ai cur ("s" :: rest)).1.any Effect.isCorrection) = false) := by
  have hs : lowerStr (trimStr "s") = "s" := rfl
  have hloop : (review_loop db text ai cur ("s" :: rest)).1
      = maybe_save_correction text ai cur
        ++ (save_interaction db cur rest).effects := by
    rw [review_loop]
    simp only [hs]
    rw [if_pos (Or.inl trivial)]
  have hsave : ((save_interaction db cur rest).effects.any Effect.isCorrection)
      = false := by
    rw [List.any_eq_false]
    intro e he
    simp [save_interaction_no_corrections db cur rest e he]
  constructor
  · rw [hloop, List.any_append, hsave, Bool.or_false]
    unfold maybe_save_correction
    by_cases hd : serializeParsed ai ≠ serializeParsed cur
    · rw [if_pos hd]
      simpa [Effect.isCorrection] using hd
    · rw [if_neg hd]
      simpa using hd
  · intro hcur
    subst hcur
    rw [hloop, List.any_append, hsave, Bool.or_false]
    unfold maybe_save_correction
    rw [if_neg (by simp)]
    rfl

/-- C2 witness: saving the unedited interaction writes no correction. -/
theorem save_correction_iff_witness :
    ((review_loop [] "t" parsedAiW parsedAiW ("s" :: [])).1.any
      Effect.isCorrection) = false :=
  (save_correction_iff [] "t" parsedAiW parsedAiW []).2 rfl

/-- C4: when resolution succeeded for some but not all requested names,
the commit step consumes a confirmation answer; only `y`/`yes` appends
the interaction inserts for the resolved subset, any other answer
leaves exactly the resolution effects, and those effects contain no
interaction insert — nothing is committed without the confirmation. -/
theorem save_interaction_partial_confirmation (db : List Person)
    (p : ParsedInteraction) (inputs : List String)
    (hloc : p.location.isEmpty = false)
    (hne : (resolveAll db p.person_names inputs).resolved ≠ [])
    (hlt : (resolveAll db p.person_names inputs).resolved.length
      < p.person_names.length) :
    ((lowerStr (promptD (resolveAll db p.person_names inputs).inputs).1 = "y" ∨
      lowerStr (promptD (resolveAll db p.person_names inputs).inputs).1 = "yes") →
      (save_interaction db p inputs).effects
        = (resolveAll db p.person_names inputs).effects
          ++ commitLogs p (resolveAll db p.person_names inputs).resolved) ∧
    ((lowerStr (promptD (resolveAll db p.person_names inputs).inputs).1 ≠ "y" ∧
      lowerStr (promptD (resolveAll db p.person_names inputs).inputs).1 ≠ "yes") →
      (save_interaction db p inputs).effects
        = (resolveAll db p.person_names inputs).effects) ∧
    (∀ e ∈ (resolveAll db p.person_names inputs).effects, e.isLog = false) := by
  have hsave : save_interaction db p inputs =
      (if lowerStr (promptD (resolveAll db p.person_names inputs).inputs).1 ≠ "y" ∧
          lowerStr (promptD (resolveAll db p.person_names inputs).inputs).1 ≠ "yes" then
        ⟨(resolveAll db p.person_names inputs).effects,
         (resolveAll db p.person_names inputs).db,
         (promptD (resolveAll db p.person_names inputs).inputs).2⟩
      else
        ⟨(resolveAll db p.person_names inputs).effects
           ++ commitLogs p (resolveAll db p.person_names inputs).resolved,
         (resolveAll db p.person_names inputs).db,
         (promptD (resolveAll db p.person_names inputs).inputs).2⟩) := by
    unfold save_interaction
    rw [if_neg (by simp [hloc])]
    simp only []
    rw [if_neg (by simp [List.isEmpty_iff, hne]), if_pos hlt]
  refine ⟨?_, ?_, fun e he => (resolveAll_effects db p.person_names inputs e he).2⟩
  · intro hyes
    rw [hsave, if_neg (by tauto)]
  · intro hno
    rw [hsave, if_pos hno]

/-- The single known contact of the C4 witness scenario. -/
def bobPerson : Person := ⟨0, "Bob", none⟩

/-- A parsed interaction asking for Bob (known) and Zed (unknown). -/
def parsedC4 : ParsedInteraction :=
  { person_names := ["Bob", "Zed"], medium := "InPerson", location := "x",
    their_location := none, topics := ["t"], note := none, date := none }

/-- C4 witness: Bob resolves, adding Zed is declined (`n`), and the
end-of-input confirmation answer is not `y`/`yes`, so the commit step
leaves exactly the resolution effects (which are empty — no interaction
insert happens). -/
theorem save_interaction_partial_confirmation_witness :
    (save_interaction [bobPerson] parsedC4 ["n"]).effects
      = (resolveAll [bobPerson] parsedC4.person_names ["n"]).effects :=
  (save_interaction_partial_confirmation [bobPerson] parsedC4 ["n"]
    (by decide) (by decide) (by decide)).2.1 (by decide)

/-- C10: on a Save of an edited interaction, the correction insert is
the first effect, before anything the commit step does; the commit
step's effects follow it unchanged and contain no correction insert, so
when the commit writes nothing (for instance an empty location aborts
it) the correction is still the sole persisted record. -/
theorem review_save_correction_first (db : List Person) (text : String)
    (ai cur : ParsedInteraction) (rest : List String)
    (hdiff : serializeParsed ai ≠ serializeParsed cur) :
    (review_loop db text ai cur ("s" :: rest)).1
      = Effect.insertCorrection text (serializeParsed ai) (serializeParsed cur)
          :: (save_interaction db cur rest).effects ∧
    (∀ e ∈ (save_interaction db cur rest).effects, e.isCorrection = false) ∧
    (cur.location.isEmpty = true →
      (review_loop db text ai cur ("s" :: rest)).1
        = [Effect.insertCorrection text (serializeParsed ai)
            (serializeParsed cur)]) := by
  have hs : lowerStr (trimStr "s") = "s" := rfl
  have hloop : (review_loop db text ai cur ("s" :: rest)).1
      = maybe_save_correction text ai cur
        ++ (save_interaction db cur rest).effects := by
    rw [review_loop]
    simp only [hs]
    rw [if_pos (Or.inl trivial)]
  have hcorr : maybe_save_correction text ai cur
      = [Effect.insertCorrection text (serializeParsed ai)
          (serializeParsed cur)] := by
    unfold maybe_save_correction
    rw [if_pos hdiff]
  refine ⟨?_, save_interaction_no_corrections db cur rest, ?_⟩
  · rw [hloop, hcorr]
    rfl
  · intro hl
    have hempty : (save_interaction db cur rest).effects = [] := by
      unfold save_interaction
      rw [if_pos hl]
    rw [hloop, hcorr, hempty]
    rfl

/-- C10 witness: an edited interaction with an empty location — the
commit aborts, the correction insert is the sole effect. -/
theorem review_save_correction_first_witness :
    (review_loop [] "t" parsedAiW parsedCurW ("s" :: [])).1
      = [Effect.insertCorrection "t" (serializeParsed parsedAiW)
          (serializeParsed parsedCurW)] :=
  (review_save_correction_first [] "t" parsedAiW parsedCurW []
    (by decide)).2.2 rfl
